import Mathlib

/-!
Verification development for the CA2UN snapshot-compressive-imaging
reconstruction network (`src/sci/architectures/CA2UN.py`).

Tensors are shallowly embedded as functions from natural-number indices to
rationals; a 4-d tensor of logical shape `[B, C, H, W]` becomes a function
`ℕ → ℕ → ℕ → ℕ → ℚ` read at indices `(b, c, h, w)`, together with the
relevant extents carried as explicit parameters.  Floating-point arithmetic
is modelled by exact rational arithmetic; the exponential inside softmax is
abstracted as an arbitrary strictly positive score-weighting function, so
that statements about attention hold for (or are refuted for) every such
function, the real exponential included.
-/

namespace CA2UN

/-- Tensor of logical shape `[B, C, H, W]`, read at `(b, c, h, w)`. -/
abbrev Ten4 : Type := ℕ → ℕ → ℕ → ℕ → ℚ

/-- Tensor of logical shape `[B, H, W]`, read at `(b, h, w)`. -/
abbrev Ten3 : Type := ℕ → ℕ → ℕ → ℚ

/-- Sensing forward operator `A(x, Phi)` (CA2UN.py lines 393-397):
multiply the cube by the mask elementwise and sum over the band axis.
The result has one index fewer than the inputs, i.e. shape `[B, H, W]`. -/
def A (nC : ℕ) (x Phi : Ten4) : Ten3 :=
  fun b h w => ∑ c in Finset.range nC, x b c h w * Phi b c h w

/-- Sensing adjoint operator `At(y, Phi)` (CA2UN.py lines 399-402):
broadcast the plane `y` over the band axis and multiply by the mask.
The result regains the band index, i.e. shape `[B, N, H, W]`. -/
def At (y : Ten3) (Phi : Ten4) : Ten4 :=
  fun b c h w => y b h w * Phi b c h w

/-- Circular rotation of a row of length `n` by `s` positions
(torch.roll along the last axis): entry `j` of the output is entry
`(j - s) mod n` of the input. -/
def roll {α : Type*} (n : ℕ) (s : ℤ) (f : ℕ → α) : ℕ → α :=
  fun j => f ((((j : ℤ) - s) % (n : ℤ)).toNat)

/-- Dispersion shift `shift_3d` (CA2UN.py lines 405-411): widen each band's
rows from `W` to `W + (C-1)*step` columns, zero-padding on the right, then
circularly rotate band `i` by `step * i` columns to the right. -/
def shift_3d {α : Type*} [Zero α] (step : ℕ) (C W : ℕ)
    (x : ℕ → ℕ → ℕ → ℕ → α) : ℕ → ℕ → ℕ → ℕ → α :=
  fun b c h =>
    roll (W + (C - 1) * step) ((step * c : ℕ) : ℤ)
      (fun j => if j < W then x b c h j else 0)

/-- Inverse dispersion shift `shift_back_3d` (CA2UN.py lines 413-417):
circularly rotate band `i` of a width-`W2` tensor by `step * i` columns to
the left.  (The source performs the per-band rolls in place; since the
bands are rotated independently, the functional reading is the same.) -/
def shift_back_3d {α : Type*} (step : ℕ) (W2 : ℕ)
    (x : ℕ → ℕ → ℕ → ℕ → α) : ℕ → ℕ → ℕ → ℕ → α :=
  fun b c h => roll W2 (-((step * c : ℕ) : ℤ)) (x b c h)

/-- Pairwise relative-position index `get_relative_position_index`
(CA2UN.py lines 612-624) for a square `ws × ws` window: for window
coordinates `(a, b)` and `(a2, b2)` the table index is
`(a - a2 + ws - 1) * (2*ws - 1) + (b - b2 + ws - 1)`, which is exactly the
value produced by the meshgrid/flatten/permute pipeline of the source. -/
def relIndex (ws : ℕ) (a b a2 b2 : ℕ) : ℤ :=
  ((a : ℤ) - a2 + ws - 1) * (2 * ws - 1) + ((b : ℤ) - b2 + ws - 1)

/-- Windowed local attention `Attention.forward_local`
(CA2UN.py lines 528-554), for a single head of head dimension `d`; the
grid is partitioned into `ws × ws` windows, and the output at grid position
`(i, j)` (channel `t`) is scaled-dot-product attention of the query at
`(i, j)` over all keys of the window containing `(i, j)`, with the learned
relative-position bias added to the scores before the softmax.  The softmax
weighting `exp` is abstracted as the function `E`. -/
def localAttn (E : ℚ → ℚ) (ws d : ℕ) (scale : ℚ) (bias : ℤ → ℚ)
    (q k v : ℕ → ℕ → ℕ → ℚ) : ℕ → ℕ → ℕ → ℚ :=
  fun i j t =>
    let wi := ws * (i / ws)
    let wj := ws * (j / ws)
    let score : ℕ × ℕ → ℚ := fun ab =>
      (∑ c in Finset.range d, q i j c * k (wi + ab.1) (wj + ab.2) c) * scale
        + bias (relIndex ws (i % ws) (j % ws) ab.1 ab.2)
    let Z := ∑ ab in Finset.range ws ×ˢ Finset.range ws, E (score ab)
    ∑ ab in Finset.range ws ×ˢ Finset.range ws,
      E (score ab) / Z * v (wi + ab.1) (wj + ab.2) t

/-- Modelled from the spec: windowed local attention in which the
right/bottom zero-padded grid positions (those outside the original
`H × W` extent) do not participate in the attention computation at all:
each window's softmax runs only over the window's real tokens.  This is
the behaviour the spec demands of the padding; it is compared against
`localAttn`, which is the source's actual computation. -/
def localAttnExcl (E : ℚ → ℚ) (ws d H W : ℕ) (scale : ℚ) (bias : ℤ → ℚ)
    (q k v : ℕ → ℕ → ℕ → ℚ) : ℕ → ℕ → ℕ → ℚ :=
  fun i j t =>
    let wi := ws * (i / ws)
    let wj := ws * (j / ws)
    let real := (Finset.range ws ×ˢ Finset.range ws).filter
      (fun ab => wi + ab.1 < H ∧ wj + ab.2 < W)
    let score : ℕ × ℕ → ℚ := fun ab =>
      (∑ c in Finset.range d, q i j c * k (wi + ab.1) (wj + ab.2) c) * scale
        + bias (relIndex ws (i % ws) (j % ws) ab.1 ab.2)
    let Z := ∑ ab in real, E (score ab)
    ∑ ab in real, E (score ab) / Z * v (wi + ab.1) (wj + ab.2) t

/-- Modelled from the spec: full, unwindowed scaled-dot-product attention
over all spatial tokens of a `ws × ws` grid, with the relative-position
bias indexing collapsed to that single window.  Compared against
`localAttn` for the single-window case (claim C7). -/
def fullAttnOneWindow (E : ℚ → ℚ) (ws d : ℕ) (scale : ℚ) (bias : ℤ → ℚ)
    (q k v : ℕ → ℕ → ℕ → ℚ) : ℕ → ℕ → ℕ → ℚ :=
  fun i j t =>
    let score : ℕ × ℕ → ℚ := fun ab =>
      (∑ c in Finset.range d, q i j c * k ab.1 ab.2 c) * scale
        + bias (relIndex ws i j ab.1 ab.2)
    let Z := ∑ ab in Finset.range ws ×ˢ Finset.range ws, E (score ab)
    ∑ ab in Finset.range ws ×ˢ Finset.range ws,
      E (score ab) / Z * v ab.1 ab.2 t

/-- Right/bottom zero padding of the spatial token grid
(`F.pad` in CA2UN.py line 579): positions outside `H × W` read zero. -/
def padTok (H W : ℕ) (x : ℕ → ℕ → ℕ → ℚ) : ℕ → ℕ → ℕ → ℚ :=
  fun i j c => if i < H ∧ j < W then x i j c else 0

/-- Application of a (bias-free) linear layer's weight matrix, input
dimension `d`. -/
def matVec (d : ℕ) (M : ℕ → ℕ → ℚ) (x : ℕ → ℚ) : ℕ → ℚ :=
  fun o => ∑ c in Finset.range d, M o c * x c

/-- Learned parameters of the `Attention` module (single head, one global
token, channel width `C`): the three rows of the fused `qkv` projection,
the two halves of `kv_global`, the output projection `proj` with its bias,
and the relative-position bias table viewed as a function of the index. -/
structure AttnParams where
  Wq : ℕ → ℕ → ℚ
  Wk : ℕ → ℕ → ℚ
  Wv : ℕ → ℕ → ℚ
  Wkg : ℕ → ℕ → ℚ
  Wvg : ℕ → ℕ → ℚ
  Wp : ℕ → ℕ → ℚ
  bp : ℕ → ℚ
  bias : ℤ → ℚ

/-- Spatial (image-token) output of `Attention.forward`
(CA2UN.py lines 569-609), for a single head of dimension `C` and one
global token, read at cropped position `(h, w)` and channel `t`:
zero-pad the grid to multiples of `ws`, project the padded tokens and the
global token through `qkv`, run windowed local attention on the padded
grid, crop to `H × W`, let the global query aggregate over the cropped
keys/values, map the aggregate through `kv_global`, add the
global-broadcast term (a softmax over the single global key) to each
cropped token, and apply the output projection. -/
def attnForwardImg (E : ℚ → ℚ) (ws C : ℕ) (scale : ℚ) (P : AttnParams)
    (H W : ℕ) (xg : ℕ → ℚ) (x : ℕ → ℕ → ℕ → ℚ) : ℕ → ℕ → ℕ → ℚ :=
  let xp := padTok H W x
  let qI : ℕ → ℕ → ℕ → ℚ := fun i j => matVec C P.Wq (xp i j)
  let kI : ℕ → ℕ → ℕ → ℚ := fun i j => matVec C P.Wk (xp i j)
  let vI : ℕ → ℕ → ℕ → ℚ := fun i j => matVec C P.Wv (xp i j)
  let qG := matVec C P.Wq xg
  let loc := localAttn E ws C scale P.bias qI kI vI
  let aggScore : ℕ × ℕ → ℚ := fun hw =>
    (∑ c in Finset.range C, qG c * kI hw.1 hw.2 c) * scale
  let ZA := ∑ hw in Finset.range H ×ˢ Finset.range W, E (aggScore hw)
  let xcls : ℕ → ℚ := fun t =>
    ∑ hw in Finset.range H ×ˢ Finset.range W, E (aggScore hw) / ZA * vI hw.1 hw.2 t
  let kG := matVec C P.Wkg xcls
  let vG := matVec C P.Wvg xcls
  let bScore : ℕ → ℕ → ℚ := fun h w =>
    (∑ c in Finset.range C, qI h w c * kG c) * scale
  let xi2 : ℕ → ℕ → ℕ → ℚ := fun h w t =>
    loc h w t + E (bScore h w) / E (bScore h w) * vG t
  fun h w t => matVec C P.Wp (xi2 h w) t + P.bp t

/-- Modelled from the spec: the same forward pass as `attnForwardImg`, but
with the local pass replaced by `localAttnExcl`, so that the zero-padded
tokens take no part in the attention computation (the global-aggregation
and broadcast paths already use only cropped tokens in the source). -/
def attnForwardImgExcl (E : ℚ → ℚ) (ws C : ℕ) (scale : ℚ) (P : AttnParams)
    (H W : ℕ) (xg : ℕ → ℚ) (x : ℕ → ℕ → ℕ → ℚ) : ℕ → ℕ → ℕ → ℚ :=
  let xp := padTok H W x
  let qI : ℕ → ℕ → ℕ → ℚ := fun i j => matVec C P.Wq (xp i j)
  let kI : ℕ → ℕ → ℕ → ℚ := fun i j => matVec C P.Wk (xp i j)
  let vI : ℕ → ℕ → ℕ → ℚ := fun i j => matVec C P.Wv (xp i j)
  let qG := matVec C P.Wq xg
  let loc := localAttnExcl E ws C H W scale P.bias qI kI vI
  let aggScore : ℕ × ℕ → ℚ := fun hw =>
    (∑ c in Finset.range C, qG c * kI hw.1 hw.2 c) * scale
  let ZA := ∑ hw in Finset.range H ×ˢ Finset.range W, E (aggScore hw)
  let xcls : ℕ → ℚ := fun t =>
    ∑ hw in Finset.range H ×ˢ Finset.range W, E (aggScore hw) / ZA * vI hw.1 hw.2 t
  let kG := matVec C P.Wkg xcls
  let vG := matVec C P.Wvg xcls
  let bScore : ℕ → ℕ → ℚ := fun h w =>
    (∑ c in Finset.range C, qI h w c * kG c) * scale
  let xi2 : ℕ → ℕ → ℕ → ℚ := fun h w t =>
    loc h w t + E (bScore h w) / E (bScore h w) * vG t
  fun h w t => matVec C P.Wp (xi2 h w) t + P.bp t

/-- Concrete `Attention` parameters used in the padding-leak instance:
identity-like scalar projections (channel width 1), zero `kv_global`
(so the global-broadcast term vanishes), identity output projection, and a
zero relative-position bias table. -/
def cexP : AttnParams :=
  { Wq := fun _ _ => 1
    Wk := fun _ _ => 1
    Wv := fun _ _ => 1
    Wkg := fun _ _ => 0
    Wvg := fun _ _ => 0
    Wp := fun _ _ => 1
    bp := fun _ => 0
    bias := fun _ => 0 }

/-- Concrete spatial input for the padding-leak instance: a `1 × 2` grid
(so the height is not a multiple of the window size 2) whose only nonzero
token value sits at position `(0, 0)`. -/
def cexX : ℕ → ℕ → ℕ → ℚ :=
  fun i j _ => if i = 0 ∧ j = 0 then 1 else 0

/-- Value after the attention step of one `LocalNonLocalBlock` sub-block
(CA2UN.py line 227): `x + Attention(x)`, where the attention slot holds the
pre-normed `SGLB` module when `NON_LOCAL` is enabled and `nn.Identity()`
when it is disabled (line 216). -/
def attnResidual (nonLocal : Bool) (attn : Ten4 → Ten4) (x : Ten4) : Ten4 :=
  fun b c h w => x b c h w + (if nonLocal then attn x else x) b c h w

/-- One sub-block of `LocalNonLocalBlock.forward` (CA2UN.py lines 226-228):
the attention residual step followed by the feed-forward residual step.
`attn` and `ffn` stand for the pre-normed attention and feed-forward
modules (arbitrary learned functions here). -/
def lnlSub (nonLocal : Bool) (attn ffn : Ten4 → Ten4) (x : Ten4) : Ten4 :=
  let x1 := attnResidual nonLocal attn x
  fun b c h w => x1 b c h w + ffn x1 b c h w

/-- `LocalNonLocalBlock.forward` (CA2UN.py lines 225-230): the residual
sub-blocks applied in sequence. -/
def localNonLocalBlock (nonLocal : Bool)
    (blocks : List ((Ten4 → Ten4) × (Ten4 → Ten4))) (x : Ten4) : Ten4 :=
  blocks.foldl (fun acc p => lnlSub nonLocal p.1 p.2 acc) x

/-- Channel concatenation `torch.cat([a, b], dim=1)` where `a` has `n`
channels. -/
def cat2 (n : ℕ) (a b : Ten4) : Ten4 :=
  fun bi c h w => if c < n then a bi c h w else b bi (c - n) h w

/-- Concatenation of the broadcast one-channel noise-level map in front of
a cube (`torch.cat([noise_level_repeat, x], dim=1)`, CA2UN.py line 771). -/
def cat1 (nl : ℕ → ℚ) (x : Ten4) : Ten4 :=
  fun b c h w => if c = 0 then nl b else x b (c - 1) h w

/-- Width crop `t[:, :, :, :W2]`: the narrowed tensor, represented with
zeros outside the kept columns. -/
def crop4 (W2 : ℕ) (t : Ten4) : Ten4 :=
  fun b c h w => if w < W2 then t b c h w else 0

/-- Learned sub-networks of the `DADN` module: `DL` is the two
`PWDWPWConv` blocks predicting the mask refinement from the concatenated
(mask, estimate) cube, and `mlpHead` is the composition
`down_sample → avg_pool → mlp` whose Softplus output yields, per batch
element, the raw (pre-offset) step size and noise level.  Softplus is
strictly positive, which appears as a nonnegativity hypothesis where
needed. -/
structure DADNParams where
  DL : Ten4 → Ten4
  mlpHead : Ten4 → ℕ → ℚ × ℚ

/-- `DADN.forward` (CA2UN.py lines 441-454): from estimate `z` and mask
`phi`, predict the refinement `phi_r = DL(cat(phi, z))`, return the refined
mask `phi + phi_r` together with the step size `mu` and noise level, each
the corresponding Softplus head output plus the offset `1e-6`. -/
def DADN_forward (nC : ℕ) (P : DADNParams) (z phi : Ten4) :
    Ten4 × (ℕ → ℚ) × (ℕ → ℚ) :=
  let phi_r := P.DL (cat2 nC phi z)
  (fun b c h w => phi b c h w + phi_r b c h w,
   fun b => (P.mlpHead phi_r b).1 + 1 / 1000000,
   fun b => (P.mlpHead phi_r b).2 + 1 / 1000000)

/-- Configuration flags consumed by `CAUN.forward_test`. -/
structure Config where
  STAGE : ℕ
  WITH_DL : Bool
  WITH_MU : Bool
  WITH_NOISE_LEVEL : Bool
  step : ℕ
  nC : ℕ

/-- Learned networks consumed by `CAUN.forward_test`, indexed by stage
(which covers both the shared-parameter and per-stage configurations):
the `DADN` instances `DP`, the `LNLT` prior instances `PP`, and the `1×1`
`fusion` convolution of `CAUN.initial`. -/
structure Nets where
  DP : ℕ → DADNParams
  PP : ℕ → Ten4 → Ten4
  fusion : Ten4 → Ten4

/-- Loop state of `CAUN.forward_test`: the input mask variable `phi`, the
current estimate `z`, the momentum point `z_hat`, and the history list
`z_list`. -/
structure UFState where
  phi : Ten4
  z : Ten4
  zHat : Ten4
  zList : List Ten4

/-- The `DADN` call of stage `i` (CA2UN.py line 755): it receives the
current estimate and the loop's mask variable `phi`. -/
def stageDADN (cfg : Config) (nets : Nets) (i : ℕ) (st : UFState) :
    Ten4 × (ℕ → ℚ) × (ℕ → ℚ) :=
  DADN_forward cfg.nC (nets.DP i) st.z st.phi

/-- Effective sensing mask of stage `i` (CA2UN.py lines 755-758): the
DADN-refined mask, unless `WITH_DL` is disabled, in which case the input
mask is kept. -/
def stageMask (cfg : Config) (nets : Nets) (i : ℕ) (st : UFState) : Ten4 :=
  if cfg.WITH_DL then (stageDADN cfg nets i st).1 else st.phi

/-- Effective step size of stage `i` (CA2UN.py lines 755-760): the DADN
prediction, unless `WITH_MU` is disabled, in which case the constant
`1e-6`. -/
def stageMu (cfg : Config) (nets : Nets) (i : ℕ) (st : UFState) : ℕ → ℚ :=
  if cfg.WITH_MU then (stageDADN cfg nets i st).2.1 else fun _ => 1 / 1000000

/-- Noise level of stage `i` (CA2UN.py line 755). -/
def stageNoise (cfg : Config) (nets : Nets) (i : ℕ) (st : UFState) : ℕ → ℚ :=
  (stageDADN cfg nets i st).2.2

/-- Band energy of a mask with zero-entry replacement
(CA2UN.py lines 762-763): `Phi_s = sum over bands of Phi², with exact-zero
entries replaced by 1`. -/
def PhiSrep (nC : ℕ) (Phi : Ten4) : Ten3 :=
  fun b h w =>
    if (∑ c in Finset.range nC, (Phi b c h w) ^ 2) = 0 then 1
    else ∑ c in Finset.range nC, (Phi b c h w) ^ 2

/-- Data-consistency estimate of stage `i` (CA2UN.py lines 764-765):
`x = z + At((y - A(z_hat, Phi)) / (mu + Phi_s), Phi)`, using the stage's
effective mask and step size and the momentum point carried in the state. -/
def stageX (cfg : Config) (nets : Nets) (y : Ten3) (i : ℕ) (st : UFState) : Ten4 :=
  fun b c h w =>
    st.z b c h w +
      At (fun b2 h2 w2 =>
            (y b2 h2 w2 - A cfg.nC st.zHat (stageMask cfg nets i st) b2 h2 w2) /
              (stageMu cfg nets i st b2 + PhiSrep cfg.nC (stageMask cfg nets i st) b2 h2 w2))
        (stageMask cfg nets i st) b c h w

/-- Body of one iteration of the `CAUN.forward_test` loop
(CA2UN.py lines 754-774), given the stage's momentum coefficient `beta_i`:
data-consistency step, unshift and crop to the true band width `W2`, prior
network (with optional noise-level conditioning), re-shift, append to the
history, and momentum extrapolation `z_hat = z + beta_i * (z_list[-1] -
z_list[-2])`.  `Wm` is the mask width (the width of the gradient-step
result that `shift_back_3d` rolls over). -/
def stageStepCore (cfg : Config) (nets : Nets) (y : Ten3) (Wm W2 : ℕ)
    (i : ℕ) (betaI : ℚ) (st : UFState) : UFState :=
  let x := crop4 W2 (shift_back_3d cfg.step Wm (stageX cfg nets y i st))
  let zN0 := if cfg.WITH_NOISE_LEVEL then
      nets.PP i (cat1 (stageNoise cfg nets i st) x)
    else nets.PP i x
  let zN := shift_3d cfg.step cfg.nC W2 zN0
  let zOld := st.zList.getLastD (fun _ _ _ _ => 0)
  { phi := st.phi
    z := zN
    zHat := fun b c h w => zN b c h w + betaI * (zN b c h w - zOld b c h w)
    zList := st.zList ++ [zN] }

/-- The momentum coefficient read at stage `i`
(CA2UN.py lines 752 and 774): `beta = 0.5 * torch.ones((W, 1))` is a
width-indexed vector of halves, and `beta[i]` is defined exactly when
`i < W`, with (broadcast) value `1/2`. -/
def betaVal (Wm i : ℕ) : Option ℚ :=
  if i < Wm then some (1 / 2) else none

/-- Initial loop state of `CAUN.forward_test` (CA2UN.py lines 749-751):
`z_hat = z` and `z_list = [z]`. -/
def mkInit (phi z0 : Ten4) : UFState :=
  { phi := phi, z := z0, zHat := z0, zList := [z0] }

/-- The first `n` iterations of the `CAUN.forward_test` loop, `none` when
a stage's `beta[i]` read is out of range. -/
def runStages (cfg : Config) (nets : Nets) (y : Ten3) (Wm W2 : ℕ)
    (init : UFState) : ℕ → Option UFState
  | 0 => some init
  | n + 1 =>
    (runStages cfg nets y Wm W2 init n).bind fun st =>
      (betaVal Wm n).map fun betaI => stageStepCore cfg nets y Wm W2 n betaI st

/-- Length of the python slice `[a:b]` of a sequence of length `n`
(endpoints clamp to the sequence length). -/
def sliceLen (n a b : ℕ) : ℕ := min b n - min a n

/-- The shifted-measurement cube built by `CAUN.initial`
(CA2UN.py lines 676-678): band `i` of `y_shift` holds the measurement on
the column range `[step*i, step*i + col - (nC-1)*step)` and zeros
elsewhere. -/
def yShiftC (step nC col : ℕ) (y : Ten3) : Ten4 :=
  fun b i h w =>
    if step * i ≤ w ∧ w < step * i + (col - (nC - 1) * step) then y b h w else 0

/-- Per-band success condition of the slice assignments in `CAUN.initial`:
the source slice of the width-`Wy` measurement must have the same length as
the target slice of the width-`col` buffer, which is exactly when the
framework's assignment does not raise.  (The corner in which a length-1
source broadcasts is modelled as a failure, which only makes the model
reject more than the source does.) -/
def initialOK (step nC col Wy : ℕ) : Prop :=
  ∀ i < nC,
    sliceLen Wy (step * i) (step * i + (col - (nC - 1) * step))
      = sliceLen col (step * i) (step * i + (col - (nC - 1) * step))

instance (step nC col Wy : ℕ) : Decidable (initialOK step nC col Wy) :=
  Nat.decidableBallLT nC fun i _ => _

/-- `CAUN.initial` (CA2UN.py lines 671-680) with the slice-assignment
success condition made explicit: build the shifted measurement cube,
concatenate it with the mask, and apply the `fusion` convolution.  `Wy` is
the measurement's width; no comparison of `Wy` with the mask width `col`
is made beyond what the slice assignments themselves require. -/
def initialChecked (step nC col Wy : ℕ) (y : Ten3) (phi : Ten4)
    (fusion : Ten4 → Ten4) : Option Ten4 :=
  if initialOK step nC col Wy then
    some (fusion (cat2 nC (yShiftC step nC col y) phi))
  else none

/-- `CAUN.forward_test` (CA2UN.py lines 738-781): initial fusion, `STAGE`
loop iterations, then a final unshift and crop to the true width. -/
def forward_test (cfg : Config) (nets : Nets) (y : Ten3) (phi : Ten4)
    (Wm W2 : ℕ) : Option Ten4 :=
  let z0 := nets.fusion (cat2 cfg.nC (yShiftC cfg.step cfg.nC Wm y) phi)
  (runStages cfg nets y Wm W2 (mkInit phi z0) cfg.STAGE).map fun st =>
    crop4 W2 (shift_back_3d cfg.step Wm st.z)

/-- Trivial configuration used by the concrete witnesses. -/
def wCfg : Config :=
  { STAGE := 1, WITH_DL := false, WITH_MU := false, WITH_NOISE_LEVEL := false
    step := 2, nC := 1 }

/-- Trivial networks used by the concrete witnesses: zero mask refinement,
zero Softplus heads, identity prior and fusion. -/
def wNets : Nets :=
  { DP := fun _ => { DL := fun _ => fun _ _ _ _ => 0, mlpHead := fun _ _ => (0, 0) }
    PP := fun _ t => t
    fusion := fun t => t }

/-- Zero measurement used by the concrete witnesses. -/
def wY : Ten3 := fun _ _ _ => 0

/-- Zero mask used by the concrete witnesses. -/
def wPhi : Ten4 := fun _ _ _ _ => 0

/-- Zero initial estimate used by the concrete witnesses. -/
def wZ0 : Ten4 := fun _ _ _ _ => 0

/-- Concrete measurement of width 5 whose columns beyond the mask width 3
hold the value 7. -/
def wY7 : Ten3 := fun _ _ w => if w < 3 then (w : ℚ) else 7

/-- Concrete measurement agreeing with `wY7` on the first 3 columns but
holding 9 beyond them. -/
def wY9 : Ten3 := fun _ _ w => if w < 3 then (w : ℚ) else 9

end CA2UN

namespace CA2UN

/-- C4: unshifting undoes shifting exactly: for every band count `C`,
pixel-shift amount `step`, tensor extents and contents, and every original
position (band `c < C`, column `j < W`), applying `shift_back_3d` with the
same step to the output of `shift_3d` recovers the original entry
bit-for-bit (the rotations are integer-pixel circular rotations on a common
padded width, with no interpolation). -/
theorem shift_back_3d_shift_3d {α : Type*} [Zero α] (step C W : ℕ)
    (x : ℕ → ℕ → ℕ → ℕ → α) (b c h j : ℕ) (hc : c < C) (hj : j < W) :
    shift_back_3d step (W + (C - 1) * step) (shift_3d step C W x) b c h j
      = x b c h j := by
  have hjn : j < W + (C - 1) * step := Nat.lt_of_lt_of_le hj (Nat.le_add_right W _)
  have hn0 : ((W + (C - 1) * step : ℕ) : ℤ) ≠ 0 := by
    have : 0 < W + (C - 1) * step := Nat.lt_of_le_of_lt (Nat.zero_le j) hjn
    exact_mod_cast Nat.pos_iff_ne_zero.mp this
  simp only [shift_back_3d, shift_3d, roll]
  have he : ((j : ℤ) - -((step * c : ℕ) : ℤ)) = (j : ℤ) + ((step * c : ℕ) : ℤ) := by
    ring
  rw [he]
  have hnn : 0 ≤ ((j : ℤ) + ((step * c : ℕ) : ℤ)) % ((W + (C - 1) * step : ℕ) : ℤ) :=
    Int.emod_nonneg _ hn0
  rw [Int.toNat_of_nonneg hnn]
  rw [Int.sub_emod, Int.emod_emod_of_dvd _ dvd_rfl, ← Int.sub_emod,
    add_sub_cancel_right]
  have hjlt : (j : ℤ) < ((W + (C - 1) * step : ℕ) : ℤ) := by exact_mod_cast hjn
  rw [Int.emod_eq_of_lt (by positivity) hjlt]
  simp [hj]

/-- Witness for C4: the round trip at a concrete tensor and position. -/
theorem shift_back_3d_shift_3d_witness :
    (1 < 3 ∧ 2 < 4) ∧
      shift_back_3d 2 (4 + (3 - 1) * 2)
          (shift_3d 2 3 4 (fun b c h j => (b + 2 * c + 3 * h + 5 * j : ℚ)))
          0 1 0 2
        = (fun b c h j => (b + 2 * c + 3 * h + 5 * j : ℚ)) 0 1 0 2 :=
  ⟨⟨by decide, by decide⟩,
    shift_back_3d_shift_3d 2 3 4 _ 0 1 0 2 (by decide) (by decide)⟩

/-- C10: the sensing operators form an adjoint pair: summing
`A(x, Phi) * y` over all entries of the measurement plane equals summing
`x * At(y, Phi)` over all entries of the cube.  The shape contract is
carried by the index structure: `A` consumes two `[B, N, H, W]` tensors and
its result is read at `(b, h, w)` only, while `At` consumes a `[B, H, W]`
plane and its result is read at `(b, c, h, w)`. -/
theorem A_At_adjoint (B N H W : ℕ) (x Phi : Ten4) (y : Ten3) :
    (∑ b in Finset.range B, ∑ h in Finset.range H, ∑ w in Finset.range W,
        A N x Phi b h w * y b h w)
      = ∑ b in Finset.range B, ∑ c in Finset.range N, ∑ h in Finset.range H,
          ∑ w in Finset.range W, x b c h w * At y Phi b c h w := by
  refine Finset.sum_congr rfl fun b _ => ?_
  calc
    (∑ h in Finset.range H, ∑ w in Finset.range W, A N x Phi b h w * y b h w)
        = ∑ h in Finset.range H, ∑ w in Finset.range W, ∑ c in Finset.range N,
            x b c h w * At y Phi b c h w := by
          refine Finset.sum_congr rfl fun h _ => Finset.sum_congr rfl fun w _ => ?_
          simp only [A, At, Finset.sum_mul]
          exact Finset.sum_congr rfl fun c _ => by ring
    _ = ∑ h in Finset.range H, ∑ c in Finset.range N, ∑ w in Finset.range W,
            x b c h w * At y Phi b c h w :=
          Finset.sum_congr rfl fun h _ => Finset.sum_comm
    _ = ∑ c in Finset.range N, ∑ h in Finset.range H, ∑ w in Finset.range W,
            x b c h w * At y Phi b c h w := Finset.sum_comm

/-- C7: when the (padded) spatial extent is a single window — every grid
position satisfies `i < ws` and `j < ws` — the windowed local attention
pass computes exactly full, unwindowed scaled-dot-product attention over
all spatial tokens, with the relative-position bias indexing collapsed to
that single window.  This holds for every positive-or-not score weighting
`E`, every head dimension, scale, bias table, and all query/key/value
contents. -/
theorem localAttn_single_window (E : ℚ → ℚ) (ws d : ℕ) (scale : ℚ)
    (bias : ℤ → ℚ) (q k v : ℕ → ℕ → ℕ → ℚ) (i j t : ℕ)
    (hi : i < ws) (hj : j < ws) :
    localAttn E ws d scale bias q k v i j t
      = fullAttnOneWindow E ws d scale bias q k v i j t := by
  simp only [localAttn, fullAttnOneWindow, Nat.div_eq_of_lt hi,
    Nat.div_eq_of_lt hj, Nat.mod_eq_of_lt hi, Nat.mod_eq_of_lt hj,
    Nat.mul_zero, Nat.zero_add]

/-- Witness for C7 at a concrete window size, weighting and tokens. -/
theorem localAttn_single_window_witness :
    (0 < 2 ∧ 1 < 2) ∧
      localAttn (fun s => s * s + 1) 2 1 1 (fun z => (z : ℚ))
          (fun i j c => (i + 2 * j + c : ℚ)) (fun i j c => (i + 2 * j + c : ℚ))
          (fun i j c => (i + 2 * j + c : ℚ)) 0 1 0
        = fullAttnOneWindow (fun s => s * s + 1) 2 1 1 (fun z => (z : ℚ))
            (fun i j c => (i + 2 * j + c : ℚ)) (fun i j c => (i + 2 * j + c : ℚ))
            (fun i j c => (i + 2 * j + c : ℚ)) 0 1 0 :=
  ⟨⟨by decide, by decide⟩,
    localAttn_single_window _ 2 1 1 _ _ _ _ 0 1 0 (by decide) (by decide)⟩

/-- Evaluation of `Attention.forward` at the padding-leak instance: the
boundary window holds two real tokens (scores `1` and `0`) and two padded
tokens (keys zero, hence scores `0`), so the softmax denominator is
`E 1 + 3 * E 0` while only the real token at `(0,0)` contributes value. -/
theorem attn_cex_eval (E : ℚ → ℚ) :
    attnForwardImg E 2 1 1 cexP 1 2 (fun _ => 0) cexX 0 0 0
      = E 1 / (E 1 + 3 * E 0) := by
  simp only [attnForwardImg, localAttn, matVec, padTok, cexP, cexX, relIndex,
    Finset.sum_product, Finset.sum_range_succ, Finset.sum_range_zero]
  norm_num
  ring_nf

/-- Evaluation of the padded-token-free attention at the same instance:
only the two real tokens enter the softmax, so the denominator is
`E 1 + E 0`. -/
theorem attn_cex_eval_excl (E : ℚ → ℚ) :
    attnForwardImgExcl E 2 1 1 cexP 1 2 (fun _ => 0) cexX 0 0 0
      = E 1 / (E 1 + E 0) := by
  simp only [attnForwardImgExcl, localAttnExcl, matVec, padTok, cexP, cexX,
    relIndex, Finset.sum_filter, Finset.sum_product, Finset.sum_range_succ,
    Finset.sum_range_zero]
  norm_num

/-- For any strictly positive weighting the two denominators differ, so the
two attention values differ. -/
theorem attn_cex_ne (E : ℚ → ℚ) (hE : ∀ s, 0 < E s) :
    E 1 / (E 1 + 3 * E 0) ≠ E 1 / (E 1 + E 0) := by
  have h0 := hE 0
  have h1 := hE 1
  exact ne_of_lt (div_lt_div_of_pos_left h1 (by linarith) (by linarith))

/-- C5 fails on the code: it is not the case that, for every strictly
positive score weighting (the role played by the exponential inside
softmax), the cropped spatial output of `Attention.forward` on an input
whose height (1) is not a multiple of the window size (2) coincides with
the output in which the zero-padded tokens do not participate in the
attention at all.  At the concrete instance below the two sides differ:
the padded keys inflate the softmax denominator of the boundary window. -/
theorem attnForward_pad_leak_counterexample :
    ¬ (∀ (E : ℚ → ℚ), (∀ s, 0 < E s) →
        attnForwardImg E 2 1 1 cexP 1 2 (fun _ => 0) cexX 0 0 0
          = attnForwardImgExcl E 2 1 1 cexP 1 2 (fun _ => 0) cexX 0 0 0) := by
  intro hcl
  have h := hcl (fun _ => 1) (fun _ => one_pos)
  rw [attn_cex_eval, attn_cex_eval_excl] at h
  exact attn_cex_ne (fun _ => 1) (fun _ => one_pos) h

/-- C5 amended: padded positions do leak into the cropped output.  The
padded tokens carry zero values, so they contribute nothing to the
attention numerator, but their keys still participate in the softmax
normalization of their window; consequently, for every strictly positive
score weighting, the cropped output of `Attention.forward` at the
exhibited boundary-window input differs from the output computed with the
padded tokens excluded from attention. -/
theorem attnForward_pad_leak (E : ℚ → ℚ) (hE : ∀ s, 0 < E s) :
    attnForwardImg E 2 1 1 cexP 1 2 (fun _ => 0) cexX 0 0 0
      ≠ attnForwardImgExcl E 2 1 1 cexP 1 2 (fun _ => 0) cexX 0 0 0 := by
  rw [attn_cex_eval, attn_cex_eval_excl]
  exact attn_cex_ne E hE

/-- Witness for the amended C5 at the constant weighting `1`. -/
theorem attnForward_pad_leak_witness :
    (∀ s : ℚ, 0 < (fun _ : ℚ => (1 : ℚ)) s) ∧
      attnForwardImg (fun _ => 1) 2 1 1 cexP 1 2 (fun _ => 0) cexX 0 0 0
        ≠ attnForwardImgExcl (fun _ => 1) 2 1 1 cexP 1 2 (fun _ => 0) cexX 0 0 0 :=
  ⟨fun _ => one_pos, attnForward_pad_leak (fun _ => 1) (fun _ => one_pos)⟩

/-- The loop of `CAUN.forward_test` never rebinds its mask variable: after
any number of stages the state's `phi` field is the input mask. -/
theorem runStages_phi (cfg : Config) (nets : Nets) (y : Ten3) (Wm W2 : ℕ)
    (phi z0 : Ten4) (n : ℕ) (st : UFState)
    (h : runStages cfg nets y Wm W2 (mkInit phi z0) n = some st) :
    st.phi = phi := by
  induction n generalizing st with
  | zero =>
    simp only [runStages, Option.some.injEq] at h
    subst h
    rfl
  | succ n ih =>
    simp only [runStages] at h
    cases hr : runStages cfg nets y Wm W2 (mkInit phi z0) n with
    | none => rw [hr] at h; simp at h
    | some st1 =>
      rw [hr] at h
      cases hb : betaVal Wm n with
      | none => rw [hb] at h; simp at h
      | some betaI =>
        rw [hb] at h
        simp only [Option.some_bind, Option.map_some', Option.some.injEq] at h
        subst h
        exact ih st1 hr

/-- Along the `CAUN.forward_test` loop the last element of `z_list` is
always the current estimate `z`. -/
theorem runStages_getLast (cfg : Config) (nets : Nets) (y : Ten3) (Wm W2 : ℕ)
    (phi z0 : Ten4) (n : ℕ) (st : UFState)
    (h : runStages cfg nets y Wm W2 (mkInit phi z0) n = some st) :
    st.zList.getLastD (fun _ _ _ _ => 0) = st.z := by
  cases n with
  | zero =>
    simp only [runStages, Option.some.injEq] at h
    subst h
    exact List.getLastD_concat _ _ []
  | succ n =>
    simp only [runStages] at h
    cases hr : runStages cfg nets y Wm W2 (mkInit phi z0) n with
    | none => rw [hr] at h; simp at h
    | some st1 =>
      rw [hr] at h
      cases hb : betaVal Wm n with
      | none => rw [hb] at h; simp at h
      | some betaI =>
        rw [hb] at h
        simp only [Option.some_bind, Option.map_some', Option.some.injEq] at h
        subst h
        exact List.getLastD_concat _ _ _

/-- The `CAUN.forward_test` loop completes whenever the stage count does
not exceed the mask width (otherwise the `beta[i]` read is out of range). -/
theorem runStages_isSome (cfg : Config) (nets : Nets) (y : Ten3) (Wm W2 : ℕ)
    (init : UFState) (n : ℕ) (hn : n ≤ Wm) :
    (runStages cfg nets y Wm W2 init n).isSome = true := by
  induction n with
  | zero => rfl
  | succ n ih =>
    obtain ⟨st, hst⟩ := Option.isSome_iff_exists.mp (ih (Nat.le_of_succ_le hn))
    simp [runStages, hst, betaVal, Nat.lt_of_succ_le hn]

/-- Each entry of the zero-replaced band energy `Phi_s` is strictly
positive, for every mask: a nonzero entry is a nonzero sum of squares. -/
theorem PhiSrep_pos (nC : ℕ) (Phi : Ten4) (b h w : ℕ) :
    0 < PhiSrep nC Phi b h w := by
  unfold PhiSrep
  split
  · exact one_pos
  · next hne =>
    exact lt_of_le_of_ne (Finset.sum_nonneg fun c _ => sq_nonneg _) (Ne.symm hne)

/-- C1 fails on the code: with non-local attention disabled by
configuration, the module stored in the attention slot is `nn.Identity()`,
so the value after the attention step `x = x + Attention(x)` is `2 * x`,
not the unchanged input `x`: at the constant-one input the step yields 2. -/
theorem attnResidual_identity_counterexample :
    attnResidual false (fun t => t) (fun _ _ _ _ => (1 : ℚ)) 0 0 0 0
      ≠ (fun _ _ _ _ => (1 : ℚ)) 0 0 0 0 := by
  norm_num [attnResidual]

/-- C1 amended: when non-local attention is disabled, the attention slot
holds the identity function, so the attention step of every
`LocalNonLocalBlock` sub-block computes `x + Id(x) = 2 * x` — it doubles
its input rather than passing it through unchanged; the sub-block is the
doubling followed by the feed-forward residual, for every input and every
(ignored) attention module. -/
theorem attnResidual_disabled_doubles (attn : Ten4 → Ten4) (x : Ten4)
    (b c h w : ℕ) :
    attnResidual false attn x b c h w = 2 * x b c h w := by
  simp only [attnResidual, Bool.false_eq_true, if_false]
  ring

/-- C2: at every stage `i` of the `CAUN.forward_test` loop, the
data-consistency step computes, entrywise,
`x = z + At((y - A(z_hat, Phi)) / (mu + Phi_s), Phi)` with `Phi` the
stage's effective mask, `mu` its effective step size, and `Phi_s` the
band-sum of `Phi²` with exact-zero entries replaced by 1 (`PhiSrep`); and
at the first iteration the extrapolated point `z_hat` of the loop state
equals `z`, since the loop starts from `z_hat = z`. -/
theorem stage_data_consistency (cfg : Config) (nets : Nets) (y : Ten3)
    (Wm W2 i : ℕ) (st : UFState) (phi z0 : Ten4) (b c h w : ℕ) :
    (stageX cfg nets y i st b c h w
        = st.z b c h w +
            (y b h w - ∑ c2 in Finset.range cfg.nC,
                st.zHat b c2 h w * stageMask cfg nets i st b c2 h w) /
              (stageMu cfg nets i st b +
                PhiSrep cfg.nC (stageMask cfg nets i st) b h w) *
              stageMask cfg nets i st b c h w)
      ∧ (mkInit phi z0).zHat = (mkInit phi z0).z
      ∧ runStages cfg nets y Wm W2 (mkInit phi z0) 0 = some (mkInit phi z0) :=
  ⟨by simp [stageX, A, At], rfl, rfl⟩

/-- C3: after every completed stage of the `CAUN.forward_test` loop the
momentum point satisfies `z_hat = z_new + (1/2) * (z_new - z_old)`, where
`z_new` is the stage's estimate and `z_old` the previous stage's estimate,
and the momentum coefficient read for the stage is the constant `1/2`
(every entry of `beta = 0.5 * ones((W, 1))` is `1/2`, regardless of the
stage index). -/
theorem momentum_update (cfg : Config) (nets : Nets) (y : Ten3) (Wm W2 : ℕ)
    (phi z0 : Ten4) (n : ℕ) (st st' : UFState)
    (h1 : runStages cfg nets y Wm W2 (mkInit phi z0) n = some st)
    (h2 : runStages cfg nets y Wm W2 (mkInit phi z0) (n + 1) = some st') :
    (∀ b c h w, st'.zHat b c h w
        = st'.z b c h w + 1 / 2 * (st'.z b c h w - st.z b c h w))
      ∧ betaVal Wm n = some (1 / 2) := by
  have hlast := runStages_getLast cfg nets y Wm W2 phi z0 n st h1
  simp only [runStages, h1] at h2
  cases hb : betaVal Wm n with
  | none => rw [hb] at h2; simp at h2
  | some betaI =>
    have hbeta : betaI = 1 / 2 := by
      unfold betaVal at hb
      by_cases hw : n < Wm
      · rw [if_pos hw] at hb
        exact (Option.some.inj hb).symm
      · rw [if_neg hw] at hb
        exact Option.noConfusion hb
    rw [hb] at h2
    simp only [Option.some_bind, Option.map_some', Option.some.injEq] at h2
    subst h2
    subst hbeta
    refine ⟨fun b c h w => ?_, rfl⟩
    simp only [stageStepCore]
    rw [hlast]

/-- Witness for C3: one completed stage of a concrete run. -/
theorem momentum_update_witness :
    (runStages wCfg wNets wY 1 1 (mkInit wPhi wZ0) 0 = some (mkInit wPhi wZ0))
      ∧ (runStages wCfg wNets wY 1 1 (mkInit wPhi wZ0) 1
          = some (stageStepCore wCfg wNets wY 1 1 0 (1 / 2) (mkInit wPhi wZ0)))
      ∧ ((∀ b c h w,
            (stageStepCore wCfg wNets wY 1 1 0 (1 / 2) (mkInit wPhi wZ0)).zHat b c h w
              = (stageStepCore wCfg wNets wY 1 1 0 (1 / 2) (mkInit wPhi wZ0)).z b c h w
                + 1 / 2 * ((stageStepCore wCfg wNets wY 1 1 0 (1 / 2) (mkInit wPhi wZ0)).z b c h w
                  - (mkInit wPhi wZ0).z b c h w))
          ∧ betaVal 1 0 = some (1 / 2)) :=
  ⟨rfl, rfl, momentum_update wCfg wNets wY 1 1 wPhi wZ0 0 _ _ rfl rfl⟩

/-- C6: if the mask fed to the loop is all-zero (and, as Softplus output,
the step-size head is nonnegative), then at every reachable stage state the
zero-replaced band energy `Phi_s` is strictly positive at every pixel, the
step size `mu` is strictly positive, the denominator `mu + Phi_s` of the
data-consistency division is strictly positive (hence the division is by a
nonzero — in exact arithmetic, finite — quantity), with mask refinement
disabled `Phi_s` is exactly 1 everywhere, and the final estimate of
`forward_test` is produced (no failure), provided the stage count does not
exceed the mask width. -/
theorem zero_mask_safety (cfg : Config) (nets : Nets) (y : Ten3) (Wm W2 : ℕ)
    (phi z0 : Ten4) (n : ℕ) (st : UFState) (b h w : ℕ)
    (hrun : runStages cfg nets y Wm W2 (mkInit phi z0) n = some st)
    (hphi : ∀ b2 c2 h2 w2, phi b2 c2 h2 w2 = 0)
    (hmlp : ∀ j t b2, 0 ≤ ((nets.DP j).mlpHead t b2).1)
    (hstage : cfg.STAGE ≤ Wm) :
    0 < PhiSrep cfg.nC (stageMask cfg nets n st) b h w
      ∧ 0 < stageMu cfg nets n st b
      ∧ 0 < stageMu cfg nets n st b
          + PhiSrep cfg.nC (stageMask cfg nets n st) b h w
      ∧ (cfg.WITH_DL = false →
          PhiSrep cfg.nC (stageMask cfg nets n st) b h w = 1)
      ∧ (forward_test cfg nets y phi Wm W2).isSome = true := by
  have hmu : 0 < stageMu cfg nets n st b := by
    unfold stageMu
    split
    · have := hmlp n ((nets.DP n).DL (cat2 cfg.nC st.phi st.z)) b
      simp only [stageDADN, DADN_forward]
      linarith
    · norm_num
  have hps := PhiSrep_pos cfg.nC (stageMask cfg nets n st) b h w
  refine ⟨hps, hmu, add_pos hmu hps, fun hdl => ?_, ?_⟩
  · have hp := runStages_phi cfg nets y Wm W2 phi z0 n st hrun
    simp [stageMask, hdl, hp, PhiSrep, hphi]
  · simp only [forward_test, Option.isSome_map']
    exact runStages_isSome cfg nets y Wm W2 _ cfg.STAGE hstage

/-- Witness for C6: the all-zero mask with trivial networks at stage 0. -/
theorem zero_mask_safety_witness :
    (runStages wCfg wNets wY 1 1 (mkInit wPhi wZ0) 0 = some (mkInit wPhi wZ0))
      ∧ (∀ b2 c2 h2 w2, wPhi b2 c2 h2 w2 = 0)
      ∧ (∀ j t b2, 0 ≤ ((wNets.DP j).mlpHead t b2).1)
      ∧ wCfg.STAGE ≤ 1
      ∧ (0 < PhiSrep wCfg.nC (stageMask wCfg wNets 0 (mkInit wPhi wZ0)) 0 0 0
          ∧ 0 < stageMu wCfg wNets 0 (mkInit wPhi wZ0) 0
          ∧ 0 < stageMu wCfg wNets 0 (mkInit wPhi wZ0) 0
              + PhiSrep wCfg.nC (stageMask wCfg wNets 0 (mkInit wPhi wZ0)) 0 0 0
          ∧ (wCfg.WITH_DL = false →
              PhiSrep wCfg.nC (stageMask wCfg wNets 0 (mkInit wPhi wZ0)) 0 0 0 = 1)
          ∧ (forward_test wCfg wNets wY wPhi 1 1).isSome = true) :=
  ⟨rfl, fun _ _ _ _ => rfl, fun _ _ _ => le_refl 0, by decide,
    zero_mask_safety wCfg wNets wY 1 1 wPhi wZ0 0 (mkInit wPhi wZ0) 0 0 0 rfl
      (fun _ _ _ _ => rfl) (fun _ _ _ => le_refl 0) (by decide)⟩

/-- C8: the mask refinement is local to each stage: after any number of
stages the loop state's mask variable is still the original input mask,
the `DADN` call of stage `n` therefore receives the original `phi`
(unchanged by earlier stages), and running one more stage leaves the mask
variable equal to `phi` — the refined mask `Phi = phi + Phi_r` is never
written back. -/
theorem mask_refinement_local (cfg : Config) (nets : Nets) (y : Ten3)
    (Wm W2 : ℕ) (phi z0 : Ten4) (n : ℕ) (st : UFState)
    (h : runStages cfg nets y Wm W2 (mkInit phi z0) n = some st) :
    st.phi = phi
      ∧ stageDADN cfg nets n st = DADN_forward cfg.nC (nets.DP n) st.z phi
      ∧ ∀ betaI, (stageStepCore cfg nets y Wm W2 n betaI st).phi = phi := by
  have hp := runStages_phi cfg nets y Wm W2 phi z0 n st h
  exact ⟨hp, by rw [stageDADN, hp], fun betaI => by simp [stageStepCore, hp]⟩

/-- Witness for C8: a concrete zero-stage run. -/
theorem mask_refinement_local_witness :
    (runStages wCfg wNets wY 1 1 (mkInit wPhi wZ0) 0 = some (mkInit wPhi wZ0))
      ∧ ((mkInit wPhi wZ0).phi = wPhi
          ∧ stageDADN wCfg wNets 0 (mkInit wPhi wZ0)
              = DADN_forward wCfg.nC (wNets.DP 0) (mkInit wPhi wZ0).z wPhi
          ∧ ∀ betaI,
              (stageStepCore wCfg wNets wY 1 1 0 betaI (mkInit wPhi wZ0)).phi = wPhi) :=
  ⟨rfl, mask_refinement_local wCfg wNets wY 1 1 wPhi wZ0 0 _ rfl⟩

/-- C9 fails on the code: a measurement whose width (5) disagrees with the
mask's spatial extent (3) is not rejected by the reconstruction entry
point: every slice assignment of `CAUN.initial` succeeds (the python
slices clamp inside the wider measurement), so the computation proceeds
into the loop instead of failing a precondition check. -/
theorem initial_no_shape_rejection :
    (5 : ℕ) ≠ 3
      ∧ (initialChecked 1 2 3 5 (fun _ _ w => (w : ℚ)) (fun _ _ _ _ => 0)
          (fun t => t)).isSome = true := by
  exact ⟨by decide, by decide⟩

/-- C9 amended: the entry point performs no mask/measurement shape
validation.  A measurement wider than the mask is accepted and silently
truncated: `CAUN.initial` only ever reads the measurement's first `col`
columns, so its result (acceptance included) is unchanged by arbitrary
modification of the measurement beyond the mask width; narrower
measurements can only fail inside the slice assignments themselves, not
through an upfront precondition check. -/
theorem initial_silent_truncation (step nC col Wy : ℕ) (y y2 : Ten3)
    (phi : Ten4) (fusion : Ten4 → Ten4)
    (hagree : ∀ b h2 w, w < col → y b h2 w = y2 b h2 w) :
    initialChecked step nC col Wy y phi fusion
      = initialChecked step nC col Wy y2 phi fusion := by
  have hcat : cat2 nC (yShiftC step nC col y) phi
      = cat2 nC (yShiftC step nC col y2) phi := by
    funext b c h2 w
    unfold cat2 yShiftC
    by_cases hc : c < nC
    · by_cases hcond : step * c ≤ w ∧ w < step * c + (col - (nC - 1) * step)
      · have hwcol : w < col := by
          have hmul : step * c ≤ step * (nC - 1) :=
            Nat.mul_le_mul_left step (by omega)
          have hcomm : (nC - 1) * step = step * (nC - 1) := Nat.mul_comm _ _
          omega
        simp only [hc, hcond, if_true, and_self, hagree b h2 w hwcol]
      · simp only [hc, if_true, hcond, if_false]
    · simp only [hc, if_false]
  unfold initialChecked
  rw [hcat]

/-- Witness for the amended C9: two measurements agreeing on the mask
width but differing beyond it give identical entry-point results. -/
theorem initial_silent_truncation_witness :
    (∀ b h2 w, w < 3 → wY7 b h2 w = wY9 b h2 w)
      ∧ initialChecked 1 2 3 5 wY7 wPhi (fun t => t)
        = initialChecked 1 2 3 5 wY9 wPhi (fun t => t) :=
  ⟨fun b h2 w hw => by simp [wY7, wY9, hw],
    initial_silent_truncation 1 2 3 5 wY7 wY9 wPhi (fun t => t)
      (fun b h2 w hw => by simp [wY7, wY9, hw])⟩

end CA2UN
